import Mathlib

/-!
Shallow embedding of the classical-ciphers library (Caesar, Atbash, Affine,
Vigenere, XOR, Polybius, planetary MagicSquare).

Modelling conventions:
* a Rust `char` is its Unicode scalar value, modelled as a `Nat`;
* a Rust `String` / `&str` is a `List Nat` of scalar values;
* a Rust byte (`u8`) is a `Nat` below 256; wrap-around of machine
  arithmetic, where it matters, is written out with explicit `%`;
* `i32` values are modelled as `Int` (all values appearing here are far
  from the `i32` boundaries, so no wrap-around occurs in the source);
* fallible steps (checked arithmetic that would panic) return `Option`.
-/

set_option maxRecDepth 4000

/-! ### ASCII character classes (Rust `char::is_ascii_*`) -/

/-- Rust `char::is_ascii_uppercase`. -/
def isAsciiUpper (c : Nat) : Bool := 65 ≤ c && c ≤ 90

/-- Rust `char::is_ascii_lowercase`. -/
def isAsciiLower (c : Nat) : Bool := 97 ≤ c && c ≤ 122

/-- Rust `char::is_ascii_alphabetic`. -/
def isAsciiAlpha (c : Nat) : Bool := isAsciiUpper c || isAsciiLower c

/-- Rust `char::is_ascii_digit`. -/
def isAsciiDigit (c : Nat) : Bool := 48 ≤ c && c ≤ 57

/-- Rust `char::to_ascii_uppercase`. -/
def toAsciiUpper (c : Nat) : Nat := if isAsciiLower c then c - 32 else c

/-! ### Caesar (src/caesar.rs)

A `Caesar` value is just its `shift : i32` field, so the cipher is modelled
by functions taking the shift directly (an `Int` standing for the stored
`i32` value). -/

/-- Two-complement wrap-around of `i32` arithmetic: the value an overflowing
`i32` operation produces under release-mode semantics (debug builds would
panic instead; either way the exact integer result is lost). -/
def wrapI32 (x : Int) : Int := (x + 2147483648) % 4294967296 - 2147483648

/-- `Caesar::shift_char`: shift an ASCII letter by `shift`, via
`rem_euclid(26)`, preserving case; other characters unchanged.  The sum
`offset + shift` is computed in `i32`, so it wraps around when `shift` is
within 25 of the `i32` boundary. -/
def caesarShiftChar (shift : Int) (c : Nat) : Nat :=
  if isAsciiAlpha c then
    let base : Nat := if isAsciiUpper c then 65 else 97
    let offset : Int := (c : Int) - (base : Int)
    base + ((wrapI32 (offset + shift)) % 26).toNat
  else c

/-- The shift map with exact integer arithmetic (no `i32` wrap-around):
a mathematical comparison point, equal to `caesarShiftChar` whenever the
`i32` sum cannot overflow. -/
def shiftCharNoWrap (shift : Int) (c : Nat) : Nat :=
  if isAsciiAlpha c then
    let base : Nat := if isAsciiUpper c then 65 else 97
    let offset : Int := (c : Int) - (base : Int)
    base + ((offset + shift) % 26).toNat
  else c

/-- `Caesar::encrypt`. -/
def Caesar.encrypt (shift : Int) (input : List Nat) : List Nat :=
  input.map (caesarShiftChar shift)

/-- `Caesar::decrypt` calls `shift_char(c, -self.shift)`; the `i32`
negation itself wraps at the minimum value. -/
def Caesar.decrypt (shift : Int) (input : List Nat) : List Nat :=
  input.map (caesarShiftChar (wrapI32 (-shift)))

/-- `Caesar::rot13` is `Caesar::new(13)`. -/
def Caesar.rot13 : Int := 13

/-! ### Atbash (src/atbash.rs) -/

/-- `Atbash::transform_char`: letter at offset `k` goes to offset `25 - k`. -/
def atbashChar (c : Nat) : Nat :=
  if isAsciiAlpha c then
    let base : Nat := if isAsciiUpper c then 65 else 97
    base + (25 - (c - base))
  else c

/-- `Atbash::encrypt`. -/
def Atbash.encrypt (input : List Nat) : List Nat := input.map atbashChar

/-- `Atbash::decrypt` calls `encrypt`. -/
def Atbash.decrypt (input : List Nat) : List Nat := Atbash.encrypt input

/-! ### Affine (src/affine.rs) -/

/-- The loop of `mod_inverse` (extended Euclidean algorithm).  The source
iterates `while r != 0`; after normalisation both remainders are
non-negative, so they are carried as `Nat` while the Bezout coefficient
stays an `Int`.  `fuel` bounds the number of iterations so that the
recursion is structural; since `r` strictly decreases on every step,
`m + 1` units of fuel always suffice for inputs below `m`. -/
def egcdLoop (fuel : Nat) (oldR r : Nat) (oldS s : Int) : Nat × Int :=
  match fuel with
  | 0 => (oldR, oldS)
  | fuel + 1 =>
    if r = 0 then (oldR, oldS)
    else egcdLoop fuel r (oldR % r) s (oldS - (oldR / r : Nat) * s)

/-- `mod_inverse(a, m)`: first `a` is replaced by `a.rem_euclid(m)`, then the
extended Euclidean loop runs with `(old_r, r) = (a, m)`, `(old_s, s) = (1, 0)`;
if the final `old_r` is not 1 there is no inverse, otherwise the result is
`old_s.rem_euclid(m)`. -/
def mod_inverse (a m : Int) : Option Int :=
  let p := egcdLoop (m.toNat + 1) (a % m).toNat m.toNat 1 0
  if p.1 ≠ 1 then none else some (p.2 % m)

/-- The `Affine` struct: `a`, its modular inverse `a_inv`, and `b`. -/
structure Affine where
  a : Int
  aInv : Int
  b : Int
deriving DecidableEq, Repr

/-- `Affine::new(a, b)`: `None` when `mod_inverse(a, 26)` is `None`,
otherwise the stored fields are `a.rem_euclid(26)`, the inverse, and
`b.rem_euclid(26)`. -/
def Affine.new (a b : Int) : Option Affine :=
  (mod_inverse a 26).map fun aInv => { a := a % 26, aInv := aInv, b := b % 26 }

/-- `Affine::caesar(shift)`: `a = 1`, `a_inv = 1`, `b = shift.rem_euclid(26)`. -/
def Affine.caesar (shift : Int) : Affine :=
  { a := 1, aInv := 1, b := shift % 26 }

/-- `Affine::rot13()` is `caesar(13)`. -/
def Affine.rot13 : Affine := Affine.caesar 13

/-- `Affine::transform_char`: encrypt maps offset `x` to `(a*x + b) % 26`,
decrypt maps it to `(a_inv * (x - b)) % 26`, case preserved. -/
def affineTransformChar (cfg : Affine) (encrypt : Bool) (c : Nat) : Nat :=
  if !isAsciiAlpha c then c
  else
    let base : Nat := if isAsciiUpper c then 65 else 97
    let x : Int := (c : Int) - (base : Int)
    let r : Int :=
      if encrypt then (cfg.a * x + cfg.b) % 26 else (cfg.aInv * (x - cfg.b)) % 26
    base + r.toNat

/-- `Affine::encrypt`. -/
def Affine.encrypt (cfg : Affine) (input : List Nat) : List Nat :=
  input.map (affineTransformChar cfg true)

/-- `Affine::decrypt`. -/
def Affine.decrypt (cfg : Affine) (input : List Nat) : List Nat :=
  input.map (affineTransformChar cfg false)

/-! ### Vigenere (src/vigenere.rs) -/

/-- `Vigenere::new`: uppercase the key, keep only ASCII letters, store their
offsets from `A`.  `str::to_uppercase` is modelled character-wise, which is
exact for ASCII scalars; non-ASCII case expansions (for example U+00DF
uppercases to the two ASCII letters "SS") are outside this model, so every
statement below about derived keys constrains the key to ASCII scalars,
where this function agrees with the source. -/
def Vigenere.new (key : List Nat) : List Nat :=
  ((key.map toAsciiUpper).filter isAsciiAlpha).map (fun c => c - 65)

/-- One character of `Vigenere::transform`: shift by `keyShift`, adding on
encrypt and subtracting on decrypt, case preserved. -/
def vigenereShiftChar (keyShift : Nat) (decrypt : Bool) (c : Nat) : Nat :=
  let base : Nat := if isAsciiUpper c then 65 else 97
  let offset : Int := (c : Int) - (base : Int)
  let shifted : Int :=
    if decrypt then (offset - keyShift) % 26 else (offset + keyShift) % 26
  base + shifted.toNat

/-- The character loop of `Vigenere::transform`, carrying `key_index`,
which advances only on ASCII-alphabetic characters. -/
def vigenereGo (key : List Nat) (decrypt : Bool) : Nat → List Nat → List Nat
  | _, [] => []
  | keyIndex, c :: rest =>
    if isAsciiAlpha c then
      vigenereShiftChar (key.getD (keyIndex % key.length) 0) decrypt c ::
        vigenereGo key decrypt (keyIndex + 1) rest
    else c :: vigenereGo key decrypt keyIndex rest

/-- `Vigenere::transform`: identity for an empty key, otherwise the loop
starting at `key_index = 0`. -/
def vigenereTransform (key : List Nat) (decrypt : Bool) (input : List Nat) : List Nat :=
  if key = [] then input else vigenereGo key decrypt 0 input

/-- `Vigenere::encrypt`. -/
def Vigenere.encrypt (key : List Nat) (input : List Nat) : List Nat :=
  vigenereTransform key false input

/-- `Vigenere::decrypt`. -/
def Vigenere.decrypt (key : List Nat) (input : List Nat) : List Nat :=
  vigenereTransform key true input

/-! ### XOR (src/xor.rs) -/

/-- UTF-8 encoding of one Unicode scalar value, as byte values.  Rust
`str::bytes` yields exactly this for each `char` of the string. -/
def utf8Encode (c : Nat) : List Nat :=
  if c < 128 then [c]
  else if c < 2048 then [192 + c / 64, 128 + c % 64]
  else if c < 65536 then [224 + c / 4096, 128 + c / 64 % 64, 128 + c % 64]
  else [240 + c / 262144, 128 + c / 4096 % 64, 128 + c / 64 % 64, 128 + c % 64]

/-- The byte sequence of a string (`input.bytes()`). -/
def strBytes (input : List Nat) : List Nat :=
  (input.map utf8Encode).flatten

/-- The indexed XOR loop shared by `Xor::transform` and
`Xor::transform_bytes`: byte `i` is XORed with `key[i % key.len()]`. -/
def xorBytesGo (key : List Nat) : Nat → List Nat → List Nat
  | _, [] => []
  | i, b :: rest => (b ^^^ key.getD (i % key.length) 0) :: xorBytesGo key (i + 1) rest

/-- `Xor::transform_bytes`. -/
def Xor.transformBytes (key input : List Nat) : List Nat :=
  if key = [] then input else xorBytesGo key 0 input

/-- `Xor::transform` (the text form): identity for an empty key, otherwise
XOR over the UTF-8 bytes of the input, each resulting byte reinterpreted
as one character (`(b ^ key_byte) as char`, identity on scalar values). -/
def xorTransform (key input : List Nat) : List Nat :=
  if key = [] then input else xorBytesGo key 0 (strBytes input)

/-- `Xor::encrypt`. -/
def Xor.encrypt (key input : List Nat) : List Nat := xorTransform key input

/-- `Xor::decrypt` calls the same transform. -/
def Xor.decrypt (key input : List Nat) : List Nat := xorTransform key input

/-! ### Polybius (src/polybius.rs) -/

/-- `Polybius::standard_grid()`: row-major `ABCDE / FGHIK / LMNOP / QRSTU /
VWXYZ` (I/J merged), as scalar values. -/
def Polybius.standardGrid : List (List Nat) :=
  [[65, 66, 67, 68, 69],
   [70, 71, 72, 73, 75],
   [76, 77, 78, 79, 80],
   [81, 82, 83, 84, 85],
   [86, 87, 88, 89, 90]]

/-- `Polybius::with_alphabet`: when the alphabet has exactly 25 characters
(the source checks only the length) they are laid row-major into the grid
(`grid[i / 5][i % 5] = chars[i]`); otherwise the standard grid is used. -/
def Polybius.withAlphabet (alphabet : List Nat) : List (List Nat) :=
  if alphabet.length = 25 then
    (List.range 5).map fun i => (List.range 5).map fun j => alphabet.getD (5 * i + j) 32
  else Polybius.standardGrid

/-- The inner separator-matching loop of `Polybius::decrypt`: `k` characters
of the separator are already matched; as long as the match is short of the
full separator and the next input character continues it, consume. Returns
the final match length and the remaining input. -/
def matchSepFrom (sep : List Nat) : Nat → List Nat → Nat × List Nat
  | k, [] => (k, [])
  | k, c :: rest =>
    if k < sep.length then
      if sep.getD k 0 = c then matchSepFrom sep (k + 1) rest else (k, c :: rest)
    else (k, c :: rest)

/-- The main loop of `Polybius::decrypt`, under the overflow-checked
(debug-build) semantics of Rust: the `u8` subtractions `digits[i] - 1`
abort (here: `none`) when the digit is 0.  A digit character consumes the
next *pair* of the global digit list when a full pair remains; a character
starting the separator greedily consumes the longest matching separator
fragment, which is suppressed exactly when it is the whole separator;
anything else is copied through.  `fuel` only makes the recursion
structural: every step consumes at least one input character, so
`fuel = input.length` never runs out (the `fuel = 0` branch with input
left is unreachable). -/
def polyDecGo (grid : List (List Nat)) (sep digits : List Nat) :
    Nat → List Nat → Nat → Option (List Nat)
  | _, [], _ => some []
  | 0, _ :: _, _ => none
  | fuel + 1, c :: rest, digitIdx =>
    if isAsciiDigit c then
      if digitIdx + 1 < digits.length then
        let d1 := digits.getD digitIdx 0
        let d2 := digits.getD (digitIdx + 1) 0
        if d1 = 0 || d2 = 0 then none
        else
          let row := d1 - 1
          let col := d2 - 1
          let pushed := if row < 5 && col < 5 then [(grid.getD row []).getD col 0] else []
          (polyDecGo grid sep digits fuel rest (digitIdx + 2)).map (pushed ++ ·)
      else polyDecGo grid sep digits fuel rest digitIdx
    else
      if sep ≠ [] ∧ sep.getD 0 0 = c then
        let p := matchSepFrom sep 1 rest
        let pushed := if p.1 ≠ sep.length then sep.take p.1 else []
        (polyDecGo grid sep digits fuel p.2 digitIdx).map (pushed ++ ·)
      else (polyDecGo grid sep digits fuel rest digitIdx).map (c :: ·)

/-- `Polybius::decrypt` under checked arithmetic.  The source first builds
`cleaned` and then `digits` from it via `to_digit(10)`; the composition
keeps exactly the ASCII digits of the input, in order. -/
def Polybius.decryptChecked (grid : List (List Nat)) (sep : List Nat)
    (input : List Nat) : Option (List Nat) :=
  polyDecGo grid sep ((input.filter isAsciiDigit).map (fun c => c - 48)) input.length input 0

/-! ### MagicSquare (src/magic_square.rs) -/

inductive Planet where
  | saturn | jupiter | mars | sun | venus | mercury | moon
deriving DecidableEq

/-- `Planet::size`. -/
def Planet.size : Planet → Nat
  | .saturn => 3
  | .jupiter => 4
  | .mars => 5
  | .sun => 6
  | .venus => 7
  | .mercury => 8
  | .moon => 9

/-- `Planet::magic_constant`: `n * (n * n + 1) / 2`. -/
def Planet.magicConstant (p : Planet) : Nat :=
  p.size * (p.size * p.size + 1) / 2

def saturnSquare : List (List Nat) := [[2, 7, 6], [9, 5, 1], [4, 3, 8]]

def jupiterSquare : List (List Nat) :=
  [[4, 14, 15, 1], [9, 7, 6, 12], [5, 11, 10, 8], [16, 2, 3, 13]]

def marsSquare : List (List Nat) :=
  [[11, 24, 7, 20, 3], [4, 12, 25, 8, 16], [17, 5, 13, 21, 9],
   [10, 18, 1, 14, 22], [23, 6, 19, 2, 15]]

def sunSquare : List (List Nat) :=
  [[6, 32, 3, 34, 35, 1], [7, 11, 27, 28, 8, 30], [19, 14, 16, 15, 23, 24],
   [18, 20, 22, 21, 17, 13], [25, 29, 10, 9, 26, 12], [36, 5, 33, 4, 2, 31]]

def venusSquare : List (List Nat) :=
  [[22, 47, 16, 41, 10, 35, 4], [5, 23, 48, 17, 42, 11, 29],
   [30, 6, 24, 49, 18, 36, 12], [13, 31, 7, 25, 43, 19, 37],
   [38, 14, 32, 1, 26, 44, 20], [21, 39, 8, 33, 2, 27, 45],
   [46, 15, 40, 9, 34, 3, 28]]

def mercurySquare : List (List Nat) :=
  [[8, 58, 59, 5, 4, 62, 63, 1], [49, 15, 14, 52, 53, 11, 10, 56],
   [41, 23, 22, 44, 45, 19, 18, 48], [32, 34, 35, 29, 28, 38, 39, 25],
   [40, 26, 27, 37, 36, 30, 31, 33], [17, 47, 46, 20, 21, 43, 42, 24],
   [9, 55, 54, 12, 13, 51, 50, 16], [64, 2, 3, 61, 60, 6, 7, 57]]

def moonSquare : List (List Nat) :=
  [[37, 78, 29, 70, 21, 62, 13, 54, 5], [6, 38, 79, 30, 71, 22, 63, 14, 46],
   [47, 7, 39, 80, 31, 72, 23, 55, 15], [16, 48, 8, 40, 81, 32, 64, 24, 56],
   [57, 17, 49, 9, 41, 73, 33, 65, 25], [26, 58, 18, 50, 1, 42, 74, 34, 66],
   [67, 27, 59, 10, 51, 2, 43, 75, 35], [36, 68, 19, 60, 11, 52, 3, 44, 76],
   [77, 28, 69, 20, 61, 12, 53, 4, 45]]

/-- `MagicSquare::generate_square`. -/
def generateSquare : Planet → List (List Nat)
  | .saturn => saturnSquare
  | .jupiter => jupiterSquare
  | .mars => marsSquare
  | .sun => sunSquare
  | .venus => venusSquare
  | .mercury => mercurySquare
  | .moon => moonSquare

/-- The `MagicSquare` struct: square, size, token separator, and the
separator between the row and column digits of one coordinate. -/
structure MagicSquare where
  square : List (List Nat)
  size : Nat
  separator : List Nat
  coordSeparator : List Nat
deriving DecidableEq

/-- `MagicSquare::new(planet)`: default separator `" "`, default
coordinate separator `","`. -/
def MagicSquare.new (p : Planet) : MagicSquare :=
  { square := generateSquare p, size := p.size, separator := [32], coordSeparator := [44] }

/-- `MagicSquare::with_separator`. -/
def MagicSquare.withSeparator (m : MagicSquare) (sep : List Nat) : MagicSquare :=
  { m with separator := sep }

/-- `MagicSquare::with_coord_separator`. -/
def MagicSquare.withCoordSeparator (m : MagicSquare) (sep : List Nat) : MagicSquare :=
  { m with coordSeparator := sep }

/-- `MagicSquare::max_value`. -/
def MagicSquare.maxValue (m : MagicSquare) : Nat := m.size * m.size

/-- Index of the first occurrence of `v` in one row (`find_position`'s
inner loop). -/
def findInRow (row : List Nat) (v : Nat) : Option Nat :=
  match row with
  | [] => none
  | x :: rest => if x = v then some 0 else (findInRow rest v).map (· + 1)

def findPosGo (rows : List (List Nat)) (v : Nat) (i : Nat) : Option (Nat × Nat) :=
  match rows with
  | [] => none
  | r :: rest =>
    match findInRow r v with
    | some j => some (i, j)
    | none => findPosGo rest v (i + 1)

/-- `MagicSquare::find_position`: first (row, col) holding `value`. -/
def MagicSquare.findPosition (m : MagicSquare) (v : Nat) : Option (Nat × Nat) :=
  findPosGo m.square v 0

/-- `MagicSquare::letter_to_value`: `A=1 ... Z=26`, `None` for
non-alphabetic characters. -/
def letterToValue (c : Nat) : Option Nat :=
  if isAsciiAlpha c then some (toAsciiUpper c - 65 + 1) else none

/-- `MagicSquare::encode_letter`: `None` when the ordinal exceeds the
square's capacity; otherwise `"{row+1}{coord_separator}{col+1}"`.  All
planet squares have size at most 9, so the two indices print as single
digit characters. -/
def MagicSquare.encodeLetter (m : MagicSquare) (c : Nat) : Option (List Nat) :=
  (letterToValue c).bind fun v =>
    if v > m.maxValue then none
    else (m.findPosition v).map fun rc =>
      [48 + (rc.1 + 1)] ++ m.coordSeparator ++ [48 + (rc.2 + 1)]

/-- The token one input character contributes to `MagicSquare::encrypt`:
the coordinate string when the letter can be encoded, the character
itself otherwise. -/
def MagicSquare.tokenOf (m : MagicSquare) (c : Nat) : List Nat :=
  if isAsciiAlpha c then (m.encodeLetter c).getD [c] else [c]

/-- Rust `str::contains(&str)`: substring containment (an empty pattern is
contained in every string). -/
def containsSubstr : List Nat → List Nat → Bool
  | [], pat => pat.isEmpty
  | s@(_ :: rest), pat => pat.isPrefixOf s || containsSubstr rest pat

/-- The output-assembly loop shared by `MagicSquare::encrypt` and its
spec rendering: each token carries a tag; the separator is pushed before
token `i > 0` exactly when token `i` and token `i - 1` are both tagged. -/
def joinTaggedAux (sep : List Nat) : Bool → List (List Nat × Bool) → List Nat
  | _, [] => []
  | prev, (t, b) :: rest => (if b && prev then sep else []) ++ t ++ joinTaggedAux sep b rest

def joinTagged (sep : List Nat) : List (List Nat × Bool) → List Nat
  | [] => []
  | (t, b) :: rest => t ++ joinTaggedAux sep b rest

/-- `MagicSquare::encrypt`: the tag the source uses for separator
insertion is `s.contains(&self.coord_separator)`. -/
def MagicSquare.encrypt (m : MagicSquare) (input : List Nat) : List Nat :=
  joinTagged m.separator
    ((input.map m.tokenOf).map fun t => (t, containsSubstr t m.coordSeparator))

/-- The insertion rule as claim C6 states it: the separator goes only
between two consecutive *coordinate* tokens, i.e. tokens produced from an
encodable letter; it never touches passthrough characters. -/
def msEncryptClaim (m : MagicSquare) (input : List Nat) : List Nat :=
  joinTagged m.separator
    (input.map fun c => (m.tokenOf c, isAsciiAlpha c && (m.encodeLetter c).isSome))

/-! ### Magic-square validity predicates (claim C4) -/

def colSum (sq : List (List Nat)) (j : Nat) : Nat :=
  (sq.map fun r => r.getD j 0).sum

def mainDiagSum (sq : List (List Nat)) (n : Nat) : Nat :=
  ((List.range n).map fun i => (sq.getD i []).getD i 0).sum

def antiDiagSum (sq : List (List Nat)) (n : Nat) : Nat :=
  ((List.range n).map fun i => (sq.getD i []).getD (n - 1 - i) 0).sum

/-- A valid `n × n` magic square with constant `m`: shape, row sums,
column sums, both main diagonals, and the values `1 .. n²` each exactly
once. -/
def isMagicSquare (sq : List (List Nat)) (n m : Nat) : Prop :=
  sq.length = n ∧ (∀ r ∈ sq, r.length = n ∧ r.sum = m) ∧
    (∀ j ∈ List.range n, colSum sq j = m) ∧
    mainDiagSum sq n = m ∧ antiDiagSum sq n = m ∧
    (∀ v ∈ List.range' 1 (n * n), sq.flatten.count v = 1)

instance isMagicSquareDecidable (sq : List (List Nat)) (n m : Nat) :
    Decidable (isMagicSquare sq n m) := by
  unfold isMagicSquare; infer_instance

/-- Number of ASCII-alphabetic characters of a string (the claim's
"alphabetic index" counts these in a prefix). -/
def countAlpha (l : List Nat) : Nat := (l.filter isAsciiAlpha).length

/-- How one input character is rendered by the claimed Vigenere rule: a
non-alphabetic character is unchanged; an alphabetic character whose
alphabetic index (count of alphabetic characters strictly before it) is
`j` is shifted by `key[j % key.length]`, case preserved, added on encrypt
and subtracted on decrypt. -/
def vigenereCharSpec (key : List Nat) (decrypt : Bool) (input : List Nat) (i : Nat) : Nat :=
  if isAsciiAlpha (input.getD i 0) then
    vigenereShiftChar (key.getD (countAlpha (input.take i) % key.length) 0) decrypt
      (input.getD i 0)
  else input.getD i 0

/-! ### Helper lemmas about the ASCII classes -/

theorem alpha_split (c : Nat) (h : isAsciiAlpha c = true) :
    (isAsciiUpper c = true ∧ 65 ≤ c ∧ c ≤ 90) ∨
      (isAsciiUpper c = false ∧ 97 ≤ c ∧ c ≤ 122) := by
  simp [isAsciiAlpha, isAsciiUpper, isAsciiLower] at h ⊢
  omega

theorem upper_of_base_add (y : Nat) (hy : y < 26) :
    isAsciiUpper (65 + y) = true ∧ isAsciiAlpha (65 + y) = true := by
  simp [isAsciiAlpha, isAsciiUpper, isAsciiLower]
  omega

theorem lower_of_base_add (y : Nat) (hy : y < 26) :
    isAsciiUpper (97 + y) = false ∧ isAsciiAlpha (97 + y) = true := by
  simp [isAsciiAlpha, isAsciiUpper, isAsciiLower]
  omega

theorem wrapI32_eq_self (x : Int) (h1 : -2147483648 ≤ x) (h2 : x < 2147483648) :
    wrapI32 x = x := by
  unfold wrapI32
  omega

theorem caesarShiftChar_eq_noWrap (shift : Int) (c : Nat)
    (h1 : -2147483648 ≤ shift) (h2 : shift ≤ 2147483622) :
    caesarShiftChar shift c = shiftCharNoWrap shift c := by
  by_cases h : isAsciiAlpha c = true
  · rcases alpha_split c h with ⟨hu, hc1, hc2⟩ | ⟨hu, hc1, hc2⟩
    · simp only [caesarShiftChar, shiftCharNoWrap, h, hu, if_true, Nat.cast_ofNat]
      rw [wrapI32_eq_self _ (by omega) (by omega)]
    · simp only [caesarShiftChar, shiftCharNoWrap, h, hu, if_true, Bool.false_eq_true,
        if_false, Nat.cast_ofNat]
      rw [wrapI32_eq_self _ (by omega) (by omega)]
  · have hb : isAsciiAlpha c = false := by simpa using h
    simp [caesarShiftChar, shiftCharNoWrap, hb]

theorem shiftCharNoWrap_roundtrip (shift : Int) (c : Nat) :
    shiftCharNoWrap (-shift) (shiftCharNoWrap shift c) = c := by
  by_cases h : isAsciiAlpha c = true
  · rcases alpha_split c h with ⟨hu, h1, h2⟩ | ⟨hu, h1, h2⟩
    · have hy0 : 0 ≤ ((c : Int) - 65 + shift) % 26 := Int.emod_nonneg _ (by omega)
      have hy1 : ((c : Int) - 65 + shift) % 26 < 26 := Int.emod_lt_of_pos _ (by omega)
      have hz := upper_of_base_add (((c : Int) - 65 + shift) % 26).toNat (by omega)
      simp only [shiftCharNoWrap, h, hu, if_true, Nat.cast_ofNat]
      rw [if_pos hz.2, if_pos hz.1]
      omega
    · have hy0 : 0 ≤ ((c : Int) - 97 + shift) % 26 := Int.emod_nonneg _ (by omega)
      have hy1 : ((c : Int) - 97 + shift) % 26 < 26 := Int.emod_lt_of_pos _ (by omega)
      have hz := lower_of_base_add (((c : Int) - 97 + shift) % 26).toNat (by omega)
      simp only [shiftCharNoWrap, h, hu, if_true, Bool.false_eq_true, if_false, Nat.cast_ofNat]
      rw [if_pos hz.2]
      simp only [hz.1, Bool.false_eq_true, if_false, Nat.cast_ofNat]
      omega
  · simp only [Bool.not_eq_true] at h
    simp [shiftCharNoWrap, h]

theorem caesar_char_roundtrip (shift : Int)
    (hs1 : -2147483622 ≤ shift) (hs2 : shift ≤ 2147483622) (c : Nat) :
    caesarShiftChar (wrapI32 (-shift)) (caesarShiftChar shift c) = c := by
  rw [wrapI32_eq_self (-shift) (by omega) (by omega),
    caesarShiftChar_eq_noWrap shift c (by omega) (by omega),
    caesarShiftChar_eq_noWrap (-shift) _ (by omega) (by omega)]
  exact shiftCharNoWrap_roundtrip shift c

theorem atbash_char_involutive (c : Nat) : atbashChar (atbashChar c) = c := by
  by_cases h : isAsciiAlpha c = true
  · rcases alpha_split c h with ⟨hu, h1, h2⟩ | ⟨hu, h1, h2⟩
    · have hz := upper_of_base_add (25 - (c - 65)) (by omega)
      simp only [atbashChar, h, hu, if_true]
      rw [if_pos hz.2, if_pos hz.1]
      omega
    · have hz := lower_of_base_add (25 - (c - 97)) (by omega)
      simp only [atbashChar, h, hu, Bool.false_eq_true, if_false, if_true]
      rw [if_pos hz.2]
      simp only [hz.1, Bool.false_eq_true, if_false]
      omega
  · simp only [Bool.not_eq_true] at h
    simp [atbashChar, h]

/-! ### Helper lemmas: Vigenere -/

theorem vig_char_alpha (k : Nat) (c : Nat) (h : isAsciiAlpha c = true) :
    isAsciiAlpha (vigenereShiftChar k false c) = true ∧
      vigenereShiftChar k true (vigenereShiftChar k false c) = c := by
  rcases alpha_split c h with ⟨hu, h1, h2⟩ | ⟨hu, h1, h2⟩
  · have hy0 : 0 ≤ ((c : Int) - 65 + k) % 26 := Int.emod_nonneg _ (by omega)
    have hy1 : ((c : Int) - 65 + k) % 26 < 26 := Int.emod_lt_of_pos _ (by omega)
    have hz := upper_of_base_add (((c : Int) - 65 + k) % 26).toNat (by omega)
    constructor
    · simp only [vigenereShiftChar, hu, if_true, Bool.false_eq_true, if_false, Nat.cast_ofNat]
      exact hz.2
    · simp only [vigenereShiftChar, hu, if_true, Bool.false_eq_true, if_false, Nat.cast_ofNat]
      rw [if_pos hz.1]
      omega
  · have hy0 : 0 ≤ ((c : Int) - 97 + k) % 26 := Int.emod_nonneg _ (by omega)
    have hy1 : ((c : Int) - 97 + k) % 26 < 26 := Int.emod_lt_of_pos _ (by omega)
    have hz := lower_of_base_add (((c : Int) - 97 + k) % 26).toNat (by omega)
    constructor
    · simp only [vigenereShiftChar, hu, Bool.false_eq_true, if_false, Nat.cast_ofNat]
      exact hz.2
    · simp only [vigenereShiftChar, hu, if_true, Bool.false_eq_true, if_false, Nat.cast_ofNat]
      simp only [hz.1, Bool.false_eq_true, if_false]
      omega

theorem vigenereGo_roundtrip (key : List Nat) (l : List Nat) :
    ∀ ki : Nat, vigenereGo key true ki (vigenereGo key false ki l) = l := by
  induction l with
  | nil => intro ki; simp [vigenereGo]
  | cons c rest ih =>
    intro ki
    by_cases h : isAsciiAlpha c = true
    · have hv := vig_char_alpha (key.getD (ki % key.length) 0) c h
      simp only [vigenereGo, h, if_true]
      simp only [vigenereGo, hv.1, if_true, hv.2, ih (ki + 1)]
    · simp only [Bool.not_eq_true] at h
      simp only [vigenereGo, h, Bool.false_eq_true, if_false]
      simp only [vigenereGo, h, Bool.false_eq_true, if_false, ih ki]

theorem vigenereGo_length (key : List Nat) (decrypt : Bool) (l : List Nat) :
    ∀ ki : Nat, (vigenereGo key decrypt ki l).length = l.length := by
  induction l with
  | nil => intro ki; simp [vigenereGo]
  | cons c rest ih =>
    intro ki
    by_cases h : isAsciiAlpha c = true
    · simp [vigenereGo, h, ih]
    · simp only [Bool.not_eq_true] at h
      simp [vigenereGo, h, ih]

theorem vigenereGo_getD (key : List Nat) (decrypt : Bool) (l : List Nat) :
    ∀ (ki i : Nat), i < l.length →
      (vigenereGo key decrypt ki l).getD i 0 =
        (if isAsciiAlpha (l.getD i 0) then
          vigenereShiftChar (key.getD ((ki + countAlpha (l.take i)) % key.length) 0)
            decrypt (l.getD i 0)
        else l.getD i 0) := by
  induction l with
  | nil => intro ki i h; simp at h
  | cons c rest ih =>
    intro ki i h
    cases i with
    | zero =>
      by_cases hc : isAsciiAlpha c = true
      · simp [vigenereGo, hc, countAlpha]
      · simp only [Bool.not_eq_true] at hc
        simp [vigenereGo, hc, countAlpha]
    | succ i =>
      have hi : i < rest.length := by simpa using h
      by_cases hc : isAsciiAlpha c = true
      · have hca : countAlpha (c :: rest.take i) = countAlpha (rest.take i) + 1 := by
          simp [countAlpha, List.filter_cons, hc]
        simp only [vigenereGo, hc, if_true, List.getD_cons_succ, List.take_succ_cons]
        rw [ih (ki + 1) i hi, hca, Nat.add_comm (countAlpha (rest.take i)) 1,
          ← Nat.add_assoc]
      · have hcb : isAsciiAlpha c = false := by simpa using hc
        have hca : countAlpha (c :: rest.take i) = countAlpha (rest.take i) := by
          simp [countAlpha, List.filter_cons, hcb]
        simp only [vigenereGo, hcb, Bool.false_eq_true, if_false, List.getD_cons_succ,
          List.take_succ_cons]
        rw [ih ki i hi, hca]

/-! ### Helper lemmas: Affine -/

theorem mod_inverse_emod26 (a : Int) : mod_inverse a 26 = mod_inverse (a % 26) 26 := by
  unfold mod_inverse
  rw [Int.emod_emod_of_dvd a (dvd_refl 26)]

theorem emod26_toFin (a : Int) : ∃ k : Fin 26, a % 26 = (k.val : Int) := by
  have h0 : 0 ≤ a % 26 := Int.emod_nonneg a (by norm_num)
  have h1 : a % 26 < 26 := Int.emod_lt_of_pos a (by norm_num)
  exact ⟨⟨(a % 26).toNat, by omega⟩, by rw [Int.toNat_of_nonneg h0]⟩

/-- The behaviour of `mod_inverse` on each residue class mod 26: it fails
exactly on the residues not coprime with 26; the coprime residues are
exactly the twelve listed values; on success the product with the residue
is 1 mod 26. -/
theorem mod_inverse_residue : ∀ k : Fin 26,
    ((mod_inverse (k.val : Int) 26 = none) ↔ Int.gcd (k.val : Int) 26 ≠ 1) ∧
      (Int.gcd (k.val : Int) 26 = 1 ↔
        (k.val : Int) ∈ ([1, 3, 5, 7, 9, 11, 15, 17, 19, 21, 23, 25] : List Int)) ∧
      (mod_inverse (k.val : Int) 26 = none ∨
        ((k.val : Int) * (mod_inverse (k.val : Int) 26).getD 0) % 26 = 1) := by
  decide

theorem affine_new_eq (a b : Int) (cfg : Affine) (h : Affine.new a b = some cfg) :
    mod_inverse a 26 = some cfg.aInv ∧ cfg.a = a % 26 ∧ cfg.b = b % 26 := by
  rcases Option.map_eq_some'.mp h with ⟨v, hv, hcfg⟩
  subst hcfg
  exact ⟨hv, rfl, rfl⟩

theorem affine_new_inv (a b : Int) (cfg : Affine) (h : Affine.new a b = some cfg) :
    (cfg.a * cfg.aInv) % 26 = 1 := by
  rcases affine_new_eq a b cfg h with ⟨hv, ha, _⟩
  rcases emod26_toFin a with ⟨k, hk⟩
  have hmi : mod_inverse (k.val : Int) 26 = some cfg.aInv := by
    rw [← hk, ← mod_inverse_emod26]; exact hv
  rcases (mod_inverse_residue k).2.2 with hnone | hmul
  · rw [hmi] at hnone; exact absurd hnone (by simp)
  · rw [hmi] at hmul
    simp only [Option.getD_some] at hmul
    rw [ha, hk]
    exact hmul

theorem affine_char_roundtrip (cfg : Affine)
    (hinv : (cfg.a * cfg.aInv) % 26 = 1) (c : Nat) :
    affineTransformChar cfg false (affineTransformChar cfg true c) = c := by
  by_cases h : isAsciiAlpha c = true
  · have hmod : ∀ x : Int, 0 ≤ x → x < 26 →
        (cfg.aInv * (((cfg.a * x + cfg.b) % 26) - cfg.b)) % 26 = x := by
      intro x hx0 hx1
      have h1 : Int.ModEq 26 ((cfg.a * x + cfg.b) % 26) (cfg.a * x + cfg.b) :=
        Int.emod_emod_of_dvd _ (dvd_refl 26)
      have h2 := (h1.sub_right cfg.b).mul_left cfg.aInv
      have e1 : cfg.aInv * (cfg.a * x + cfg.b - cfg.b) = cfg.a * cfg.aInv * x := by ring
      rw [e1] at h2
      have h3 : Int.ModEq 26 (cfg.a * cfg.aInv * x) (1 * x) :=
        Int.ModEq.mul_right x (show Int.ModEq 26 (cfg.a * cfg.aInv) 1 by
          unfold Int.ModEq; rw [hinv]; decide)
      have h4 := h2.trans h3
      unfold Int.ModEq at h4
      rw [h4, one_mul]
      exact Int.emod_eq_of_lt hx0 hx1
    rcases alpha_split c h with ⟨hu, h1, h2⟩ | ⟨hu, h1, h2⟩
    · have hy0 : 0 ≤ (cfg.a * ((c : Int) - 65) + cfg.b) % 26 := Int.emod_nonneg _ (by omega)
      have hy1 : (cfg.a * ((c : Int) - 65) + cfg.b) % 26 < 26 := Int.emod_lt_of_pos _ (by omega)
      have hz := upper_of_base_add ((cfg.a * ((c : Int) - 65) + cfg.b) % 26).toNat (by omega)
      simp only [affineTransformChar, h, hu, if_true, Bool.not_true, Bool.false_eq_true,
        if_false, Nat.cast_ofNat]
      simp only [hz.2, Bool.not_true, Bool.false_eq_true, if_false, hz.1, if_true,
        Nat.cast_ofNat]
      have hcast : ((65 + ((cfg.a * ((c : Int) - 65) + cfg.b) % 26).toNat : Nat) : Int) - 65 =
          (cfg.a * ((c : Int) - 65) + cfg.b) % 26 := by
        push_cast [Int.toNat_of_nonneg hy0]; ring
      rw [hcast, hmod ((c : Int) - 65) (by omega) (by omega)]
      omega
    · have hy0 : 0 ≤ (cfg.a * ((c : Int) - 97) + cfg.b) % 26 := Int.emod_nonneg _ (by omega)
      have hy1 : (cfg.a * ((c : Int) - 97) + cfg.b) % 26 < 26 := Int.emod_lt_of_pos _ (by omega)
      have hz := lower_of_base_add ((cfg.a * ((c : Int) - 97) + cfg.b) % 26).toNat (by omega)
      simp only [affineTransformChar, h, hu, if_true, Bool.not_true, Bool.false_eq_true,
        if_false, Nat.cast_ofNat]
      simp only [hz.2, Bool.not_true, Bool.false_eq_true, if_false, hz.1, if_true,
        Nat.cast_ofNat]
      have hcast : ((97 + ((cfg.a * ((c : Int) - 97) + cfg.b) % 26).toNat : Nat) : Int) - 97 =
          (cfg.a * ((c : Int) - 97) + cfg.b) % 26 := by
        push_cast [Int.toNat_of_nonneg hy0]; ring
      rw [hcast, hmod ((c : Int) - 97) (by omega) (by omega)]
      omega
  · have hb : isAsciiAlpha c = false := by simpa using h
    simp [affineTransformChar, hb]

/-! ### Helper lemmas: XOR -/

theorem xorBytesGo_involutive (key : List Nat) (l : List Nat) :
    ∀ i : Nat, xorBytesGo key i (xorBytesGo key i l) = l := by
  induction l with
  | nil => intro i; simp [xorBytesGo]
  | cons b rest ih =>
    intro i
    simp only [xorBytesGo, ih (i + 1), List.cons.injEq, and_true]
    rw [Nat.xor_assoc, Nat.xor_self, Nat.xor_zero]

theorem xorBytesGo_length (key : List Nat) (l : List Nat) :
    ∀ i : Nat, (xorBytesGo key i l).length = l.length := by
  induction l with
  | nil => intro i; simp [xorBytesGo]
  | cons b rest ih => intro i; simp [xorBytesGo, ih]

theorem strBytes_ascii (l : List Nat) (h : ∀ c ∈ l, c < 128) : strBytes l = l := by
  induction l with
  | nil => simp [strBytes]
  | cons c rest ih =>
    have hc : c < 128 := h c (List.mem_cons_self c rest)
    have hr := ih fun x hx => h x (List.mem_cons_of_mem c hx)
    simp only [strBytes, List.map_cons, List.flatten_cons] at hr ⊢
    rw [hr, utf8Encode, if_pos hc]
    rfl

/-! ### Helper lemmas: substring containment -/

theorem isPrefixOf_self_append (pat post : List Nat) :
    pat.isPrefixOf (pat ++ post) = true := by
  induction pat with
  | nil => simp [List.isPrefixOf]
  | cons p pt ih => simp [List.isPrefixOf, ih]

theorem containsSubstr_append_mid (pre pat post : List Nat) :
    containsSubstr (pre ++ pat ++ post) pat = true := by
  induction pre with
  | nil =>
    cases pat with
    | nil =>
      cases post with
      | nil => rfl
      | cons y t => simp [containsSubstr, List.isPrefixOf]
    | cons p pt =>
      simp only [List.nil_append, List.cons_append, containsSubstr, List.append_eq]
      have hp := isPrefixOf_self_append (p :: pt) post
      simp only [List.cons_append] at hp
      simp [hp]
  | cons x pre ih =>
    have ih2 : containsSubstr (pre ++ (pat ++ post)) pat = true := by
      rw [← List.append_assoc]; exact ih
    simp [containsSubstr, List.cons_append, ih2]

theorem containsSubstr_singleton_ne (c : Nat) (pat : List Nat)
    (h1 : pat ≠ []) (h2 : pat ≠ [c]) : containsSubstr [c] pat = false := by
  cases pat with
  | nil => exact absurd rfl h1
  | cons p pt =>
    cases pt with
    | nil =>
      have hpc : p ≠ c := fun he => h2 (by rw [he])
      simp [containsSubstr, List.isPrefixOf, hpc]
    | cons q qt => simp [containsSubstr, List.isPrefixOf]

/-! ### Remaining helper lemmas -/

theorem toAsciiUpper_nonalpha (c : Nat) (h : isAsciiAlpha c = false) :
    toAsciiUpper c = c := by
  have hl : isAsciiLower c = false := by
    simp only [isAsciiAlpha, Bool.or_eq_false_iff] at h
    exact h.2
  simp [toAsciiUpper, hl]

theorem map_roundtrip (f g : Nat → Nat) (h : ∀ c, g (f c) = c) :
    ∀ l : List Nat, (l.map f).map g = l := by
  intro l
  induction l with
  | nil => rfl
  | cons c rest ih => simp [h, ih]

theorem ms_tag_eq (m : MagicSquare) (input : List Nat)
    (hcs : m.coordSeparator ≠ [])
    (hpt : ∀ c ∈ input, m.tokenOf c = [c] → m.coordSeparator ≠ [c]) :
    ∀ c ∈ input, containsSubstr (m.tokenOf c) m.coordSeparator =
      (isAsciiAlpha c && (m.encodeLetter c).isSome) := by
  intro c hc
  by_cases ha : isAsciiAlpha c = true
  · cases he : m.encodeLetter c with
    | some e =>
      rcases Option.bind_eq_some.mp he with ⟨v, _, hif⟩
      by_cases hvm : v > m.maxValue
      · rw [if_pos hvm] at hif; exact absurd hif (by simp)
      · rw [if_neg hvm] at hif
        rcases Option.map_eq_some'.mp hif with ⟨rc, _, heq⟩
        have htok : m.tokenOf c = e := by simp [MagicSquare.tokenOf, ha, he]
        rw [htok, ← heq, containsSubstr_append_mid]
        simp [ha, he]
    | none =>
      have htok : m.tokenOf c = [c] := by simp [MagicSquare.tokenOf, ha, he]
      rw [htok, containsSubstr_singleton_ne c m.coordSeparator hcs (hpt c hc htok)]
      simp [ha, he]
  · have hb : isAsciiAlpha c = false := by simpa using ha
    have htok : m.tokenOf c = [c] := by simp [MagicSquare.tokenOf, hb]
    rw [htok, containsSubstr_singleton_ne c m.coordSeparator hcs (hpt c hc htok)]
    simp [hb]

theorem affine_caesar_char (shift : Int) (c : Nat) :
    affineTransformChar (Affine.caesar shift) true c = shiftCharNoWrap shift c ∧
      affineTransformChar (Affine.caesar shift) false c = shiftCharNoWrap (-shift) c := by
  by_cases h : isAsciiAlpha c = true
  · by_cases hu : isAsciiUpper c = true
    · constructor <;>
        · simp only [affineTransformChar, shiftCharNoWrap, Affine.caesar, h, hu, if_true,
            Bool.not_true, Bool.false_eq_true, if_false, Nat.cast_ofNat]
          omega
    · have hu2 : isAsciiUpper c = false := by simpa using hu
      constructor <;>
        · simp only [affineTransformChar, shiftCharNoWrap, Affine.caesar, h, hu2, if_true,
            Bool.not_true, Bool.false_eq_true, if_false, Nat.cast_ofNat]
          omega
  · have hb : isAsciiAlpha c = false := by simpa using h
    constructor <;> simp [affineTransformChar, shiftCharNoWrap, hb]

/-! ### Claims -/

/-- Claim C1, counterexamples.  XOR part: with key `[0xFF]` on the
one-letter string "A", the text transform produces the non-ASCII scalar
0xBE, whose UTF-8 re-encoding on the second pass is two bytes, so
`decrypt(encrypt("A"))` is "=A", not "A".  Caesar part: the valid
construction `Caesar::new(i32::MAX)` overflows the `i32` sum
`offset + shift` on "Z" (wrap under release semantics, a panic under
debug overflow checks), so `decrypt(encrypt("Z"))` is "D", not "Z". -/
theorem c1_counterexample :
    (Xor.decrypt [255] (Xor.encrypt [255] [65]) = [61, 65] ∧
      Xor.decrypt [255] (Xor.encrypt [255] [65]) ≠ [65]) ∧
      (Caesar.decrypt 2147483647 (Caesar.encrypt 2147483647 [90]) = [68] ∧
        Caesar.decrypt 2147483647 (Caesar.encrypt 2147483647 [90]) ≠ [90]) := by
  decide

/-- Claim C1 (amended): decrypt after encrypt is the identity on every
string for Caesar (every shift of magnitude at most 2^31 - 26, so that
the `i32` additions `offset + shift` and `offset - shift` cannot
overflow), Atbash, Affine (every cipher built by `new`, and every cipher
built by `caesar`), and Vigenere (every derived key); for XOR the
text-level round trip holds provided the input consists of ASCII scalars
(below 0x80) and every XORed byte also stays below 0x80 (otherwise the
output characters re-encode as multi-byte UTF-8 and the second pass
reads different bytes). -/
theorem c1_roundtrip_amended :
    (∀ (shift : Int) (s : List Nat), -2147483622 ≤ shift → shift ≤ 2147483622 →
        Caesar.decrypt shift (Caesar.encrypt shift s) = s) ∧
      (∀ s : List Nat, Atbash.decrypt (Atbash.encrypt s) = s) ∧
      (∀ (a b : Int) (cfg : Affine) (s : List Nat),
        Affine.new a b = some cfg → Affine.decrypt cfg (Affine.encrypt cfg s) = s) ∧
      (∀ (shift : Int) (s : List Nat),
        Affine.decrypt (Affine.caesar shift) (Affine.encrypt (Affine.caesar shift) s) = s) ∧
      (∀ key s : List Nat, Vigenere.decrypt key (Vigenere.encrypt key s) = s) ∧
      (∀ key s : List Nat, (∀ c ∈ s, c < 128) → (∀ b ∈ xorBytesGo key 0 s, b < 128) →
        Xor.decrypt key (Xor.encrypt key s) = s) := by
  refine ⟨?_, ?_, ?_, ?_, ?_, ?_⟩
  · intro shift s hs1 hs2
    exact map_roundtrip _ _ (caesar_char_roundtrip shift hs1 hs2) s
  · intro s
    exact map_roundtrip _ _ atbash_char_involutive s
  · intro a b cfg s h
    exact map_roundtrip _ _ (affine_char_roundtrip cfg (affine_new_inv a b cfg h)) s
  · intro shift s
    exact map_roundtrip _ _
      (affine_char_roundtrip (Affine.caesar shift) (by simp [Affine.caesar])) s
  · intro key s
    by_cases hk : key = []
    · simp [Vigenere.encrypt, Vigenere.decrypt, vigenereTransform, hk]
    · simp only [Vigenere.encrypt, Vigenere.decrypt, vigenereTransform, hk, if_false]
      exact vigenereGo_roundtrip key s 0
  · intro key s h1 h2
    by_cases hk : key = []
    · simp [Xor.encrypt, Xor.decrypt, xorTransform, hk]
    · simp only [Xor.encrypt, Xor.decrypt, xorTransform, hk, if_false]
      rw [strBytes_ascii s h1, strBytes_ascii _ h2]
      exact xorBytesGo_involutive key s 0

/-- Witness for C1: the Caesar conjunct at shift 1000 on "Z", the Affine
conjunct at `new(5, 8)` on "HELLO", and the XOR conjunct at key "KEY" on
"Hi!" (all bytes ASCII before and after XOR), with every hypothesis
discharged concretely. -/
theorem c1_roundtrip_amended_witness :
    ((-2147483622 : Int) ≤ 1000 ∧ (1000 : Int) ≤ 2147483622 ∧
      Caesar.decrypt 1000 (Caesar.encrypt 1000 [90]) = [90]) ∧
      Affine.new 5 8 = some { a := 5, aInv := 21, b := 8 } ∧
      Affine.decrypt { a := 5, aInv := 21, b := 8 }
        (Affine.encrypt { a := 5, aInv := 21, b := 8 } [72, 69, 76, 76, 79]) =
        [72, 69, 76, 76, 79] ∧
      (∀ c ∈ [72, 105, 33], c < 128) ∧
      (∀ b ∈ xorBytesGo [75, 69, 89] 0 [72, 105, 33], b < 128) ∧
      Xor.decrypt [75, 69, 89] (Xor.encrypt [75, 69, 89] [72, 105, 33]) = [72, 105, 33] :=
  ⟨⟨by decide, by decide,
    c1_roundtrip_amended.1 1000 [90] (by decide) (by decide)⟩,
   by decide,
   c1_roundtrip_amended.2.2.1 5 8 { a := 5, aInv := 21, b := 8 } [72, 69, 76, 76, 79]
     (by decide),
   by decide, by decide,
   c1_roundtrip_amended.2.2.2.2.2 [75, 69, 89] [72, 105, 33] (by decide) (by decide)⟩

/-- Claim C2: the claim says `Polybius::decrypt` never fails for any digit
content including the digit 0, but on the input "05" the checked `u8`
subtraction `digits[0] - 1` underflows (a panic in debug builds), modelled
here by the checked decrypt returning `none`. -/
theorem c2_polybius_digit0_underflow :
    Polybius.decryptChecked Polybius.standardGrid [] [48, 53] = none := by
  decide

/-- Claim C3: `Affine::new(a, b)` is `None` exactly when
`gcd(a mod 26, 26) != 1`; it succeeds exactly when `a mod 26` is one of
the twelve units mod 26; and on success the stored inverse satisfies
`a * a_inv = 1 (mod 26)`. -/
theorem c3_affine_new (a b : Int) :
    ((Affine.new a b = none) ↔ Int.gcd (a % 26) 26 ≠ 1) ∧
      ((Affine.new a b).isSome = true ↔
        a % 26 ∈ ([1, 3, 5, 7, 9, 11, 15, 17, 19, 21, 23, 25] : List Int)) ∧
      (∀ cfg : Affine, Affine.new a b = some cfg → (a * cfg.aInv) % 26 = 1) := by
  obtain ⟨k, hk⟩ := emod26_toFin a
  have hmi : mod_inverse a 26 = mod_inverse (k.val : Int) 26 := by
    rw [mod_inverse_emod26, hk]
  have hres := mod_inverse_residue k
  have e1 : (Affine.new a b = none) ↔ (mod_inverse (k.val : Int) 26 = none) := by
    rw [← hmi]; simp [Affine.new, Option.map_eq_none']
  refine ⟨?_, ?_, ?_⟩
  · rw [e1, hres.1, hk]
  · have e2 : (Affine.new a b).isSome = true ↔ ¬(mod_inverse (k.val : Int) 26 = none) := by
      rw [← hmi]
      simp [Affine.new, Option.isSome_iff_ne_none, Option.map_eq_none']
    rw [e2, hk]
    have hg := hres.1
    have hm := hres.2.1
    tauto
  · intro cfg h
    rcases affine_new_eq a b cfg h with ⟨hv, _, _⟩
    have hmi2 : mod_inverse (k.val : Int) 26 = some cfg.aInv := by rw [← hmi]; exact hv
    rcases hres.2.2 with hnone | hmul
    · rw [hmi2] at hnone; exact absurd hnone (by simp)
    · rw [hmi2] at hmul
      simp only [Option.getD_some] at hmul
      have h3 : (k.val : Int) % 26 = (k.val : Int) :=
        Int.emod_eq_of_lt (Int.natCast_nonneg _) (by exact_mod_cast k.isLt)
      calc (a * cfg.aInv) % 26 = ((a % 26) * (cfg.aInv % 26)) % 26 :=
            Int.mul_emod a cfg.aInv 26
        _ = (((k.val : Int) % 26) * (cfg.aInv % 26)) % 26 := by rw [hk, h3]
        _ = ((k.val : Int) * cfg.aInv) % 26 := (Int.mul_emod _ _ _).symm
        _ = 1 := hmul

/-- Witness for C3 at `a = 5`, `b = 8`: construction succeeds with stored
inverse 21, and `5 * 21 = 105 = 1 (mod 26)`. -/
theorem c3_affine_new_witness : ((5 : Int) * 21) % 26 = 1 :=
  (c3_affine_new 5 8).2.2 { a := 5, aInv := 21, b := 8 } (by decide)

/-- Claim C4: each of the seven planetary squares is a genuine magic
square of its size: every row, every column, and both main diagonals sum
to the magic constant `n(n^2+1)/2`, and the values `1..n^2` each occur
exactly once. -/
theorem c4_magic_squares_valid :
    ∀ p : Planet, isMagicSquare (generateSquare p) p.size p.magicConstant := by
  intro p
  cases p <;> decide

/-- Claim C5: the source checks only the length of the custom alphabet,
not uniqueness.  The 25-character string of 25 copies of the letter A
has one distinct character, yet `with_alphabet` lays it into the grid
instead of falling back to the standard grid. -/
theorem c5_with_alphabet_length_only :
    (List.replicate 25 65).dedup.length = 1 ∧
      Polybius.withAlphabet (List.replicate 25 65) =
        List.replicate 5 (List.replicate 5 65) ∧
      Polybius.withAlphabet (List.replicate 25 65) ≠ Polybius.standardGrid := by
  decide

/-- Claim C6, counterexample: with the default Saturn configuration
(separator " ", coordinate separator ","), the input "A,B" contains the
passthrough character comma, which the `contains`-based insertion test
mistakes for a coordinate token, so the output is "2,3 , 1,1" with the
main separator adjacent to a passthrough character; the claimed rule
would produce "2,3,1,1". -/
theorem c6_counterexample :
    MagicSquare.encrypt (MagicSquare.new .saturn) [65, 44, 66] =
        [50, 44, 51, 32, 44, 32, 49, 44, 49] ∧
      msEncryptClaim (MagicSquare.new .saturn) [65, 44, 66] =
        [50, 44, 51, 44, 49, 44, 49] ∧
      MagicSquare.encrypt (MagicSquare.new .saturn) [65, 44, 66] ≠
        msEncryptClaim (MagicSquare.new .saturn) [65, 44, 66] := by
  decide

/-- Claim C6 (amended): for every configuration and input, the main
separator is inserted only between two consecutive coordinate tokens -
never before the first token and never adjacent to a passthrough
character - provided the coordinate separator is non-empty and no
passthrough character of the input is itself equal to the coordinate
separator (the counterexample shows the rule fails otherwise, because
the source tests separator insertion by substring containment). -/
theorem c6_separator_rule_amended (m : MagicSquare) (input : List Nat)
    (hcs : m.coordSeparator ≠ [])
    (hpt : ∀ c ∈ input, m.tokenOf c = [c] → m.coordSeparator ≠ [c]) :
    MagicSquare.encrypt m input = msEncryptClaim m input := by
  unfold MagicSquare.encrypt msEncryptClaim
  rw [List.map_map]
  congr 1
  apply List.map_congr_left
  intro c hc
  simp only [Function.comp]
  rw [ms_tag_eq m input hcs hpt c hc]

/-- Witness for C6 at the Saturn default configuration on "AB": the
hypotheses hold concretely and the code output equals the claimed
rendering "2,3 1,1". -/
theorem c6_separator_rule_amended_witness :
    ((MagicSquare.new .saturn).coordSeparator ≠ [] ∧
      ∀ c ∈ [65, 66], (MagicSquare.new .saturn).tokenOf c = [c] →
        (MagicSquare.new .saturn).coordSeparator ≠ [c]) ∧
      MagicSquare.encrypt (MagicSquare.new .saturn) [65, 66] =
        msEncryptClaim (MagicSquare.new .saturn) [65, 66] :=
  ⟨⟨by decide, by decide⟩,
   c6_separator_rule_amended (MagicSquare.new .saturn) [65, 66] (by decide) (by decide)⟩

/-- Claim C7: for a non-empty derived key, the transform preserves length;
a non-alphabetic character is unchanged at its position (and does not
advance the key cursor); an alphabetic character whose alphabetic index
is `j` (alphabetic characters strictly before it) is shifted, case
preserved, by `key[j % key.length]`, added on encrypt and subtracted on
decrypt. -/
theorem c7_vigenere_characterisation (key : List Nat) (decrypt : Bool)
    (input : List Nat) (hk : key ≠ []) :
    (vigenereTransform key decrypt input).length = input.length ∧
      ∀ i, i < input.length →
        (vigenereTransform key decrypt input).getD i 0 =
          vigenereCharSpec key decrypt input i := by
  unfold vigenereTransform
  rw [if_neg hk]
  refine ⟨vigenereGo_length key decrypt input 0, fun i hi => ?_⟩
  rw [vigenereGo_getD key decrypt input 0 i hi]
  simp [vigenereCharSpec]

/-- Witness for C7: key `[10]` on "Ab c" (scalars `[65, 98, 32, 99]`),
checking the length and the character at index 3, whose alphabetic index
is 2. -/
theorem c7_vigenere_characterisation_witness :
    (vigenereTransform [10] false [65, 98, 32, 99]).length = 4 ∧
      (vigenereTransform [10] false [65, 98, 32, 99]).getD 3 0 =
        vigenereCharSpec [10] false [65, 98, 32, 99] 3 :=
  ⟨(c7_vigenere_characterisation [10] false [65, 98, 32, 99] (by decide)).1,
   (c7_vigenere_characterisation [10] false [65, 98, 32, 99] (by decide)).2 3 (by decide)⟩

/-- Claim C8: a Vigenere key of ASCII characters none of which is a
letter derives an empty key sequence, and both encrypt and decrypt are
then the identity; an empty XOR key makes encrypt, decrypt, and
`transform_bytes` the identity.  (The key is constrained to ASCII
scalars because `str::to_uppercase` is modelled character-wise, which is
exact there; a character like U+00DF, whose uppercase expansion contains
ASCII letters, is alphabetic and hence excluded by the claim itself.) -/
theorem c8_empty_key_identity :
    (∀ keyStr input : List Nat, (∀ c ∈ keyStr, c < 128 ∧ isAsciiAlpha c = false) →
        Vigenere.new keyStr = [] ∧
        Vigenere.encrypt (Vigenere.new keyStr) input = input ∧
        Vigenere.decrypt (Vigenere.new keyStr) input = input) ∧
      (∀ input : List Nat, Xor.encrypt [] input = input ∧ Xor.decrypt [] input = input) ∧
      (∀ input : List Nat, Xor.transformBytes [] input = input) := by
  refine ⟨?_, ?_, ?_⟩
  · intro keyStr input hall
    have h : ∀ c ∈ keyStr, isAsciiAlpha c = false := fun c hc => (hall c hc).2
    have hempty : Vigenere.new keyStr = [] := by
      unfold Vigenere.new
      have hf : (keyStr.map toAsciiUpper).filter isAsciiAlpha = [] := by
        rw [List.filter_eq_nil_iff]
        intro a ha
        rcases List.mem_map.mp ha with ⟨c, hc, rfl⟩
        rw [toAsciiUpper_nonalpha c (h c hc)]
        simp [h c hc]
      rw [hf]
      rfl
    rw [hempty]
    exact ⟨rfl, by simp [Vigenere.encrypt, vigenereTransform],
      by simp [Vigenere.decrypt, vigenereTransform]⟩
  · intro input
    exact ⟨by simp [Xor.encrypt, xorTransform], by simp [Xor.decrypt, xorTransform]⟩
  · intro input
    simp [Xor.transformBytes]

/-- Witness for C8: the key "1!" (scalars `[49, 33]`) is ASCII with no
alphabetic characters, and encrypt on "Hi" is the identity. -/
theorem c8_empty_key_identity_witness :
    (∀ c ∈ [49, 33], c < 128 ∧ isAsciiAlpha c = false) ∧
      Vigenere.encrypt (Vigenere.new [49, 33]) [72, 105] = [72, 105] :=
  ⟨by decide, (c8_empty_key_identity.1 [49, 33] [72, 105] (by decide)).2.1⟩

/-- Claim C9, counterexample: at shift = i32::MAX (a valid construction
the claim covers), `Affine::caesar` reduces the shift mod 26 exactly and
sends "Z" to "W", while `Caesar::new` overflows the `i32` sum on "Z"
(wrap under release semantics, a panic under debug overflow checks) and
produces "A" - the two ciphers disagree. -/
theorem c9_counterexample :
    Affine.encrypt (Affine.caesar 2147483647) [90] = [87] ∧
      Caesar.encrypt 2147483647 [90] = [65] ∧
      Affine.encrypt (Affine.caesar 2147483647) [90] ≠
        Caesar.encrypt 2147483647 [90] := by
  decide

/-- Claim C9 (amended): for every shift of magnitude at most 2^31 - 26
(so that no `i32` addition or negation in `Caesar` can overflow),
`Affine::caesar(shift)` encrypts and decrypts every input exactly as
`Caesar::new(shift)` does, and `Affine::rot13()` agrees with
`Caesar::rot13()` unconditionally. -/
theorem c9_affine_caesar_equiv (shift : Int) (input : List Nat)
    (hs1 : -2147483622 ≤ shift) (hs2 : shift ≤ 2147483622) :
    Affine.encrypt (Affine.caesar shift) input = Caesar.encrypt shift input ∧
      Affine.decrypt (Affine.caesar shift) input = Caesar.decrypt shift input ∧
      Affine.encrypt Affine.rot13 input = Caesar.encrypt Caesar.rot13 input ∧
      Affine.decrypt Affine.rot13 input = Caesar.decrypt Caesar.rot13 input := by
  have he : ∀ sh : Int, -2147483622 ≤ sh → sh ≤ 2147483622 → ∀ l : List Nat,
      Affine.encrypt (Affine.caesar sh) l = Caesar.encrypt sh l := by
    intro sh h1 h2 l
    unfold Affine.encrypt Caesar.encrypt
    apply List.map_congr_left
    intro c _
    rw [caesarShiftChar_eq_noWrap sh c (by omega) (by omega)]
    exact (affine_caesar_char sh c).1
  have hd : ∀ sh : Int, -2147483622 ≤ sh → sh ≤ 2147483622 → ∀ l : List Nat,
      Affine.decrypt (Affine.caesar sh) l = Caesar.decrypt sh l := by
    intro sh h1 h2 l
    unfold Affine.decrypt Caesar.decrypt
    apply List.map_congr_left
    intro c _
    rw [wrapI32_eq_self (-sh) (by omega) (by omega),
      caesarShiftChar_eq_noWrap (-sh) c (by omega) (by omega)]
    exact (affine_caesar_char sh c).2
  exact ⟨he shift hs1 hs2 input, hd shift hs1 hs2 input,
    he 13 (by omega) (by omega) input, hd 13 (by omega) (by omega) input⟩

/-- Witness for C9 at shift 3 on "AZ": both bound hypotheses hold and the
encrypt sides agree. -/
theorem c9_affine_caesar_equiv_witness :
    ((-2147483622 : Int) ≤ 3 ∧ (3 : Int) ≤ 2147483622) ∧
      Affine.encrypt (Affine.caesar 3) [65, 90] = Caesar.encrypt 3 [65, 90] :=
  ⟨by decide, (c9_affine_caesar_equiv 3 [65, 90] (by decide) (by decide)).1⟩

/-- Claim C10: `Xor::transform_bytes` is an involution for every key
(including the empty key) and every byte sequence, and it always
preserves the length of its input. -/
theorem c10_transform_bytes_involution (key input : List Nat) :
    Xor.transformBytes key (Xor.transformBytes key input) = input ∧
      (Xor.transformBytes key input).length = input.length := by
  by_cases hk : key = []
  · simp [Xor.transformBytes, hk]
  · unfold Xor.transformBytes
    rw [if_neg hk, if_neg hk]
    exact ⟨xorBytesGo_involutive key input 0, xorBytesGo_length key input 0⟩
